import Mathlib

/-!
Shallow embedding of the `modern_bloom` C++ bloom-filter library
(headers `static_bloom.hpp`, `dynamic_bloom.hpp`, `bloom_filter.hpp`,
`internal/utils.hpp`), together with proofs about the embedded code.

Modelling conventions.

* `std::size_t` / `std::uint64_t` are modelled as `Nat`; wherever the C++
  arithmetic can wrap (the 64-bit accumulator of the double-hashing loop,
  the bit-field stores of `m` and `k`), the reduction `% 2 ^ 64`
  (resp. `% 2 ^ 56`, `% 2 ^ 8`) is written out explicitly.
* The heap array `std::uint64_t *bits` of `len` words is modelled as a
  `List Nat` of the same length, each entry a 64-bit word.
* The pluggable `Hash` function object is modelled as a field
  `hash : α → Nat` of the filter record (the subobject is stateless in the
  sense that calling it does not mutate it, exactly as the C++ code uses a
  `Hash const &`).
* The constructor of the resizable filters evaluates
  `-std::log(eps)` in single-precision float.  The embedding takes that
  value as an explicit rational parameter `nlogEps` (the exact value of
  the float produced by the platform's `log`) and performs the remaining
  arithmetic exactly over `ℚ`.  The float constant
  `log_2 = 0.6931471805599453f` is represented by its exact binary32
  value `1453635 / 2097152 = 0.693147182464599609375`.  The remaining
  single-precision multiplications and divisions round with relative
  error ~1e-7; all theorems below about concrete sizings are stated with
  interval slack that dwarfs that error, so they hold for the exact
  float computation as well.
-/

set_option maxHeartbeats 1000000

namespace tnt

/-- `utils::size_traits::low_mask = std::size_t(-1) >> (sizeof(std::size_t)/2*8)`,
i.e. `(2^64 - 1) >> 32`. -/
def size_traits.low_mask : Nat := (2 ^ 64 - 1) >>> 32

/-- `utils::size_traits::high_mask = std::size_t(-1) & ~low_mask`.  On 64-bit
naturals the complement of `low_mask` within 64 bits is `2^64 - 1 - low_mask`. -/
def size_traits.high_mask : Nat := (2 ^ 64 - 1) - size_traits.low_mask

/-- `utils::size_traits::high_shift = sizeof(std::size_t)/2*8 = 32`. -/
def size_traits.high_shift : Nat := 32

/-- `auto const step = hash & utils::size_traits::low_mask;`
(the low half of the 64-bit hash value). -/
def stepOf (hash : Nat) : Nat := hash &&& size_traits.low_mask

/-- `auto h = (hash & utils::size_traits::high_mask) >> utils::size_traits::high_shift;`
(the high half of the 64-bit hash value, shifted down). -/
def baseOf (hash : Nat) : Nat := (hash &&& size_traits.high_mask) >>> size_traits.high_shift

/-- Number of 64-bit words backing a bit array of `m` bits:
`(m >> 6) + ((m & 63) != 0)`, i.e. `⌈m / 64⌉`. -/
def wordLen (m : Nat) : Nat := m / 64 + (if m % 64 ≠ 0 then 1 else 0)

/-- `bits[index >> 6] |= std::size_t{1} << (index & 63);` -/
def setBit (bits : List Nat) (index : Nat) : List Nat :=
  bits.set (index / 64) (bits.getD (index / 64) 0 ||| 1 <<< (index % 64))

/-- `(bits[index >> 6] & (std::size_t{1} << (index & 63))) != 0` -/
def testBit (bits : List Nat) (index : Nat) : Bool :=
  bits.getD (index / 64) 0 &&& 1 <<< (index % 64) != 0

/-- The running accumulator of the enhanced-double-hashing loop of
`dynamic_bloom::insert` / `matches` (and identically `bloom_filter`):
`h` starts as the high half of the hash and round `i` performs
`h += i * step;` on a 64-bit unsigned, i.e. modulo `2^64`.
`dhH hash i` is the value of `h` at the end of round `i`. -/
def dhH (hash : Nat) : Nat → Nat
  | 0 => (baseOf hash + 0 * stepOf hash) % 2 ^ 64
  | i + 1 => (dhH hash i + (i + 1) * stepOf hash) % 2 ^ 64

/-- `auto const index = h % m;` — the bit position probed at round `i`. -/
def idx (hash m i : Nat) : Nat := dhH hash i % m

/-- Exact binary32 value of the float literal `0.6931471805599453f`
used as `log_2` by the sizing code. -/
def log2f : ℚ := 1453635 / 2097152

/-- `m = static_cast<std::size_t>(n * nlog_eps / (log_2 * log_2));`
where `nlog_eps = -std::log(eps)` is passed in as the exact rational value
of that float.  The cast truncates (for the non-negative values at hand,
truncation = floor), and the result is stored in the 56-bit bit-field
`std::size_t m : sizeof(std::size_t) * 8 - 8`, hence the `% 2 ^ 56`. -/
def sizingM (n : Nat) (nlogEps : ℚ) : Nat :=
  (⌊(n : ℚ) * nlogEps / (log2f * log2f)⌋).toNat % 2 ^ 56

/-- `k = static_cast<std::size_t>(nlog_eps / log_2);` stored in the 8-bit
bit-field `std::size_t k : 8`, hence the `% 2 ^ 8`. -/
def sizingK (nlogEps : ℚ) : Nat :=
  (⌊nlogEps / log2f⌋).toNat % 2 ^ 8

/-- `tnt::dynamic_bloom<T, Hash>`: heap bit array, bit-field packed
parameters `m` and `k`, and the (private-base) hash subobject. -/
structure dynamic_bloom (α : Type) where
  bits : List Nat
  m : Nat
  k : Nat
  hash : α → Nat

/-- The `(n, eps, hash)` constructor of `tnt::dynamic_bloom`: computes the
sizing, then allocates `len = (m >> 6) + ((m & 63) != 0)` zeroed words.
No parameter validation of any kind is performed by the source. -/
def dynamic_bloom.new (α : Type) (n : Nat) (nlogEps : ℚ) (hash : α → Nat) :
    dynamic_bloom α :=
  let m := sizingM n nlogEps
  { bits := List.replicate (wordLen m) 0, m := m, k := sizingK nlogEps, hash := hash }

/-- `dynamic_bloom::insert`: one hash evaluation, then `k` rounds of
`h += i * step; bits[index >> 6] |= 1 << (index & 63);` with `index = h % m`. -/
def dynamic_bloom.insert (f : dynamic_bloom α) (value : α) : dynamic_bloom α :=
  let hash := f.hash value
  { f with bits := (List.range f.k).foldl (fun b i => setBit b (idx hash f.m i)) f.bits }

/-- `dynamic_bloom::matches`: recomputes the same `k` indices and folds
`found |= (bits[index >> 6] & (1 << (index & 63))) != 0;` starting from
`found = false`.  (Note the source accumulates with `|=`, a disjunction.) -/
def dynamic_bloom.matches (f : dynamic_bloom α) (value : α) : Bool :=
  let hash := f.hash value
  (List.range f.k).foldl (fun found i => found || testBit f.bits (idx hash f.m i)) false

/-- `dynamic_bloom::clear`: zeroes each of the `len = (m >> 6) + ((m & 63) != 0)`
words of the bit array in place; `m` and `k` are untouched. -/
def dynamic_bloom.clear (f : dynamic_bloom α) : dynamic_bloom α :=
  { f with bits := (List.range (wordLen f.m)).foldl (fun b i => b.set i 0) f.bits }

/- `swap(dynamic_bloom &, dynamic_bloom &)` is deliberately NOT modelled:
the source calls `std::swap(lhs.m, rhs.m)` and `std::swap(lhs.k, rhs.k)`
on the bit-field members `m : 56` and `k : 8`, and a non-const lvalue
reference cannot bind to a bit-field, so the function (and everything
that calls it: move construction, copy/move assignment,
`clear_and_resize`) is ill-formed and fails to compile when used.
There is no runtime behaviour to embed.  The same applies to
`swap(bloom_filter &, bloom_filter &)` below. -/

/-- `tnt::bloom_filter<T, Hash, Alloc>`: identical algorithmic state to
`dynamic_bloom` plus the (private-base) allocator subobject, modelled as an
opaque value of type `A`.  Its `insert` / `matches` / `clear` bodies are
token-for-token the same loops as `dynamic_bloom`'s. -/
structure bloom_filter (α : Type) (A : Type) where
  m : Nat
  k : Nat
  bits : List Nat
  hash : α → Nat
  alloc : A

/-- `bloom_filter::insert` — same loop as `dynamic_bloom.insert`. -/
def bloom_filter.insert (f : bloom_filter α A) (value : α) : bloom_filter α A :=
  let hash := f.hash value
  { f with bits := (List.range f.k).foldl (fun b i => setBit b (idx hash f.m i)) f.bits }

/-- `bloom_filter::matches` — same loop as `dynamic_bloom.matches`. -/
def bloom_filter.matches (f : bloom_filter α A) (value : α) : Bool :=
  let hash := f.hash value
  (List.range f.k).foldl (fun found i => found || testBit f.bits (idx hash f.m i)) false

/-- `tnt::static_bloom<T, N, Hash>`: a member array
`std::uint64_t bits[N / 64 + (N % 64 != 0)]{}` and the hash subobject. -/
structure static_bloom (N : Nat) (α : Type) where
  bits : List Nat
  hash : α → Nat

/-- The default-constructed `static_bloom`: value-initialized (all-zero)
member array of `N / 64 + (N % 64 != 0)` words. -/
def static_bloom.empty (N : Nat) (hash : α → Nat) : static_bloom N α :=
  ⟨List.replicate (wordLen N) 0, hash⟩

/-- `static_bloom::bucket`: `hash(value) & (N - 1)` when `N` is a power of
two (`(N & (N - 1)) == 0`), otherwise `hash(value) % N`. -/
def static_bloom.bucket (N : Nat) (h : Nat) : Nat :=
  if N &&& (N - 1) = 0 then h &&& (N - 1) else h % N

/-- `static_bloom::insert`: sets the single bit at `bucket(value)`. -/
def static_bloom.insert (f : static_bloom N α) (value : α) : static_bloom N α :=
  ⟨setBit f.bits (static_bloom.bucket N (f.hash value)), f.hash⟩

/-- `static_bloom::matches`: tests the single bit at `bucket(value)`. -/
def static_bloom.matches (f : static_bloom N α) (value : α) : Bool :=
  testBit f.bits (static_bloom.bucket N (f.hash value))

/-- `static_bloom::clear`: `for (auto &bit : bits) bit = 0;` -/
def static_bloom.clear (f : static_bloom N α) : static_bloom N α :=
  ⟨f.bits.map (fun _ => 0), f.hash⟩

/-- The loop bound of `swap(static_bloom &, static_bloom &)`:
`auto const len = N / 64 + (N % 64) != 0;`.  By C++ operator precedence
this parses as `(N / 64 + N % 64) != 0`, a `bool`, so `len` is `1` for
every `N > 0` (and `0` only when `N = 0`) — not the word count
`N / 64 + (N % 64 != 0)` used for the array itself. -/
def static_bloom.swapLen (N : Nat) : Nat :=
  if N / 64 + N % 64 ≠ 0 then 1 else 0

/-- `swap(static_bloom &, static_bloom &)`:
`for i < len: std::swap(lhs.bits[i], rhs.bits[i])` with the `len` above.
Since the per-index swaps touch distinct indices, the net effect is that
each side receives the other side's original words at indices `< len`.
The `Hash` subobjects are not exchanged. -/
def static_bloom.swap (a b : static_bloom N α) :
    static_bloom N α × static_bloom N α :=
  (⟨(List.range (static_bloom.swapLen N)).foldl
      (fun bs i => bs.set i (b.bits.getD i 0)) a.bits, a.hash⟩,
   ⟨(List.range (static_bloom.swapLen N)).foldl
      (fun bs i => bs.set i (a.bits.getD i 0)) b.bits, b.hash⟩)

/-- The sizing formula exactly as the specification states it, over the
reals: `k = round(-ln(eps) / ln(2))`.  (Second definition, written from
the spec's words, for comparison against the code's `sizingK`.) -/
noncomputable def spec_round_k (eps : ℝ) : ℤ :=
  round (-Real.log eps / Real.log 2)

/-- The filter state used to evaluate `matches` on a partially-set probe
sequence: construct for `n = 1` with `nlog_eps = 2` (an `eps` of about
`e^-2 ≈ 0.135`, giving `m = 4`, `k = 2`), hash the element values
themselves, and insert the value `0` (whose two probe indices coincide at
bit `0`). -/
def c1_filter : dynamic_bloom Nat :=
  (dynamic_bloom.new Nat 1 2 (fun x => x)).insert 0

/-- A `dynamic_bloom` constructed with `n = 100` and `eps = 0.9`
(`-log(0.9f) ≈ 0.10536`, passed as the rational `10536 / 100000`; any
logarithm implementation with error below 500 % yields the same sizing,
see `sizingK_eq_zero_of_small`).  The sizing gives `m = 21`, `k = 0`. -/
def c2_new : dynamic_bloom Nat :=
  dynamic_bloom.new Nat 100 (10536 / 100000) (fun x => x)

/-- Filter `a` for the `static_bloom` swap evaluation: capacity `N = 100`
(two 64-bit words), identity hash, value `64` inserted — its bit lives in
the second word. -/
def c4_a : static_bloom 100 Nat :=
  (static_bloom.empty 100 (fun x => x)).insert 64

/-- Filter `b` for the `static_bloom` swap evaluation: empty. -/
def c4_b : static_bloom 100 Nat :=
  static_bloom.empty 100 (fun x => x)

/-! ### Helper lemmas about the embedded primitives -/

/-- `low_mask` is the low 32 bits. -/
theorem low_mask_eq : size_traits.low_mask = 2 ^ 32 - 1 := by decide

/-- `high_mask` is bits 32..63, i.e. `(2^32 - 1) <<< 32`. -/
theorem high_mask_eq : size_traits.high_mask = (2 ^ 32 - 1) <<< 32 := by decide

/-- `step` is the hash value reduced modulo `2^32`. -/
theorem stepOf_eq (h : Nat) : stepOf h = h % 2 ^ 32 := by
  unfold stepOf
  rw [low_mask_eq, Nat.and_pow_two_sub_one_eq_mod]

/-- `base` is the high half: `h / 2^32 % 2^32`. -/
theorem baseOf_eq (h : Nat) : baseOf h = h / 2 ^ 32 % 2 ^ 32 := by
  unfold baseOf
  rw [high_mask_eq, size_traits.high_shift]
  apply Nat.eq_of_testBit_eq
  intro i
  simp only [Nat.testBit_shiftRight, Nat.testBit_and, Nat.testBit_shiftLeft,
    Nat.testBit_two_pow_sub_one, Nat.testBit_mod_two_pow]
  rw [← Nat.shiftRight_eq_div_pow, Nat.testBit_shiftRight]
  rcases lt_or_ge i 32 with hi | hi
  · simp [hi, Nat.add_comm 32 i]
  · simp [hi, Nat.not_lt.mpr, show ¬(32 + i - 32 < 32) by omega, Bool.and_comm]

/-- The accumulator stays below `2^64` at every round. -/
theorem dhH_lt (hash i : Nat) : dhH hash i < 2 ^ 64 := by
  cases i <;> exact Nat.mod_lt _ (by norm_num)

/-- A bit index below `m` lands in one of the `⌈m/64⌉` allocated words. -/
theorem div64_lt_wordLen {x m : Nat} (h : x < m) : x / 64 < wordLen m := by
  unfold wordLen
  split <;> omega

/-- Bool version of the single-bit test: `x &&& 2^j != 0` is `x.testBit j`. -/
theorem and_two_pow_bne (x j : Nat) : (x &&& 2 ^ j != 0) = x.testBit j := by
  rcases h : x.testBit j with _ | _
  · have hz : x &&& 2 ^ j = 0 := by
      apply Nat.zero_of_testBit_eq_false
      intro i
      rw [Nat.testBit_and]
      rcases eq_or_ne i j with rfl | hne
      · simp [h]
      · simp [Nat.testBit_two_pow_of_ne (Ne.symm hne)]
    simp [hz]
  · have ht : (x &&& 2 ^ j).testBit j = true := by
      rw [Nat.testBit_and, h, Nat.testBit_two_pow_self]
      rfl
    have hnz : x &&& 2 ^ j ≠ 0 := by
      intro h0
      rw [h0] at ht
      simp at ht
    simp [bne_iff_ne, hnz]

/-- `testBit` reads bit `i % 64` of word `i / 64`. -/
theorem testBit_def (bits : List Nat) (i : Nat) :
    testBit bits i = Nat.testBit (bits.getD (i / 64) 0) (i % 64) := by
  unfold testBit
  rw [Nat.shiftLeft_eq, one_mul, and_two_pow_bne]

/-- Setting a bit whose word is allocated makes its test succeed. -/
theorem testBit_setBit_self (bits : List Nat) (index : Nat)
    (h : index / 64 < bits.length) : testBit (setBit bits index) index = true := by
  rw [testBit_def]
  unfold setBit
  rw [List.getD_eq_getElem?_getD, List.getElem?_set_self (by simpa using h)]
  simp only [Option.getD_some]
  rw [Nat.shiftLeft_eq, one_mul, Nat.testBit_or, Nat.testBit_two_pow_self, Bool.or_true]

/-- `setBit` never clears a bit that was already set. -/
theorem testBit_setBit_of_testBit (bits : List Nat) (index j : Nat)
    (h : testBit bits j = true) : testBit (setBit bits index) j = true := by
  rw [testBit_def] at h ⊢
  unfold setBit
  rcases eq_or_ne (index / 64) (j / 64) with hw | hw
  · rcases lt_or_ge (j / 64) bits.length with hlt | hge
    · rw [List.getD_eq_getElem?_getD, ← hw, List.getElem?_set_self (hw ▸ hlt)]
      simp only [Option.getD_some]
      rw [Nat.testBit_or, hw, h, Bool.true_or]
    · rw [List.getD_eq_getElem?_getD, List.getElem?_eq_none (by simpa using hge)] at h
      simp at h
  · rw [List.getD_eq_getElem?_getD, List.getElem?_set_ne hw, ← List.getD_eq_getElem?_getD]
    exact h

/-- `setBit` preserves the word count. -/
theorem length_setBit (bits : List Nat) (index : Nat) :
    (setBit bits index).length = bits.length := by
  unfold setBit
  exact List.length_set bits _ _

/-- Any bit of an all-zero word list reads zero. -/
theorem getD_replicate_zero (n i : Nat) : (List.replicate n 0).getD i 0 = 0 := by
  rw [List.getD_eq_getElem?_getD]
  rcases lt_or_ge i n with h | h
  · simp [List.getElem?_replicate_of_lt h]
  · rw [List.getElem?_eq_none (by simpa using h)]
    rfl

/-- Any bit of a mapped-to-zero word list reads zero. -/
theorem getD_map_zero (l : List Nat) (i : Nat) :
    (l.map (fun _ => 0)).getD i 0 = 0 := by
  induction l generalizing i with
  | nil => rfl
  | cons a l ih =>
    cases i with
    | zero => rfl
    | succ i => simp [ih i]

/-- The in-place zeroing loop of `dynamic_bloom::clear` leaves a zero at
every word index below its bound. -/
theorem getD_foldl_set_zero (len : Nat) (l : List Nat) (i : Nat) (h : i < len) :
    ((List.range len).foldl (fun b j => b.set j 0) l).getD i 0 = 0 := by
  induction len generalizing i with
  | zero => omega
  | succ len ih =>
    rw [List.range_succ, List.foldl_append, List.foldl_cons, List.foldl_nil]
    rcases eq_or_ne i len with heq | hne
    · subst heq
      rcases lt_or_ge i ((List.range i).foldl (fun b j => b.set j 0) l).length with hlt | hge
      · rw [List.getD_eq_getElem?_getD, List.getElem?_set_self hlt]
        rfl
      · rw [List.getD_eq_getElem?_getD, List.getElem?_eq_none (by simpa using hge)]
        rfl
    · rw [List.getD_eq_getElem?_getD, List.getElem?_set_ne (Ne.symm hne),
        ← List.getD_eq_getElem?_getD]
      exact ih i (by omega)

/-- The `found |= …` accumulation of `matches` is a disjunction fold. -/
theorem foldl_or_eq (l : List Nat) (p : Nat → Bool) (b : Bool) :
    l.foldl (fun acc i => acc || p i) b = (b || l.any p) := by
  induction l generalizing b with
  | nil => simp
  | cons a l ih => simp [ih, Bool.or_assoc]

/-- A bit survives any further sequence of `setBit`s. -/
theorem testBit_foldl_setBit (l : List Nat) (g : Nat → Nat) (bits : List Nat)
    (j : Nat) (h : testBit bits j = true) :
    testBit (l.foldl (fun b i => setBit b (g i)) bits) j = true := by
  induction l generalizing bits with
  | nil => exact h
  | cons a l ih => exact ih _ (testBit_setBit_of_testBit _ _ _ h)

/-- Evaluation rule for `sizingM` from rational bounds on the quotient. -/
theorem sizingM_eq {n v : Nat} {L : ℚ} (hv : v < 2 ^ 56)
    (h1 : (v : ℚ) ≤ (n : ℚ) * L / (log2f * log2f))
    (h2 : (n : ℚ) * L / (log2f * log2f) < v + 1) : sizingM n L = v := by
  unfold sizingM
  have hfl : ⌊(n : ℚ) * L / (log2f * log2f)⌋ = (v : ℤ) := by
    rw [Int.floor_eq_iff]
    constructor
    · exact_mod_cast h1
    · push_cast
      exact h2
  rw [hfl, Int.toNat_natCast]
  exact Nat.mod_eq_of_lt hv

/-- Evaluation rule for `sizingK` from rational bounds on the quotient. -/
theorem sizingK_eq {v : Nat} {L : ℚ} (hv : v < 2 ^ 8)
    (h1 : (v : ℚ) ≤ L / log2f) (h2 : L / log2f < v + 1) : sizingK L = v := by
  unfold sizingK
  have hfl : ⌊L / log2f⌋ = (v : ℤ) := by
    rw [Int.floor_eq_iff]
    constructor
    · exact_mod_cast h1
    · push_cast
      exact h2
  rw [hfl, Int.toNat_natCast]
  exact Nat.mod_eq_of_lt hv

/-! ### General facts about the embedded filters (shared development) -/

/-- No false negatives for `dynamic_bloom` whenever the parameters are
non-degenerate (`m > 0`, `k ≥ 1`) and the bit array really has its
`⌈m/64⌉` words: inserting a value makes `matches` of that value true. -/
theorem dynamic_bloom.insert_matches_true (f : dynamic_bloom α) (v : α)
    (hm : 0 < f.m) (hk : 0 < f.k) (hlen : wordLen f.m ≤ f.bits.length) :
    (f.insert v).matches v = true := by
  unfold dynamic_bloom.insert dynamic_bloom.matches
  simp only
  rw [foldl_or_eq, Bool.false_or, List.any_eq_true]
  refine ⟨0, List.mem_range.mpr hk, ?_⟩
  obtain ⟨k₀, hk₀⟩ : ∃ k₀, f.k = k₀ + 1 := ⟨f.k - 1, by omega⟩
  rw [hk₀, List.range_succ_eq_map, List.foldl_cons]
  apply testBit_foldl_setBit
  apply testBit_setBit_self
  exact lt_of_lt_of_le (div64_lt_wordLen (Nat.mod_lt _ hm)) hlen

/-- No false negatives for `static_bloom` under the same well-formedness
conditions. -/
theorem static_bloom.insert_then_matches_true (N : Nat) (f : static_bloom N α) (v : α)
    (hN : 0 < N) (hlen : wordLen N ≤ f.bits.length) :
    (f.insert v).matches v = true := by
  unfold static_bloom.insert static_bloom.matches
  simp only
  apply testBit_setBit_self
  have hb : static_bloom.bucket N (f.hash v) < N := by
    unfold static_bloom.bucket
    split
    · exact lt_of_le_of_lt Nat.and_le_right (by omega)
    · exact Nat.mod_lt _ hN
  exact lt_of_lt_of_le (div64_lt_wordLen hb) hlen

/-- `sizingK` yields `0` for any computed `-log(eps)` value below the
float `ln 2` constant (any `eps` above about `1/2`), independently of the
platform's exact rounding of the logarithm. -/
theorem sizingK_eq_zero_of_small (L : ℚ) (h0 : 0 ≤ L) (h1 : L < log2f) :
    sizingK L = 0 := by
  apply sizingK_eq (by norm_num)
  · rw [Nat.cast_zero]
    apply div_nonneg h0
    norm_num [log2f]
  · have hc : (0 : ℚ) < log2f := by norm_num [log2f]
    rw [div_lt_iff₀ hc]
    nlinarith

/-! ### Claim theorems -/

/-- Claim C1.  The claim states that for the resizable filter `matches`
computes the same `k` indices as `insert` (true) and returns true only if
*all* `k` corresponding bits are set, false if any one is unset.  The code
however accumulates the `k` bit tests with `found |= …`, a disjunction.
Evaluating the code: in the filter built for `n = 1`, `nlog_eps = 2`
(`m = 4`, `k = 2`) with the identity hash and the value `0` inserted
(both of whose probe indices are bit `0`), querying the value `1` probes
bits `0` and `1`; bit `1` (round 1) is unset, yet `matches` returns true. -/
theorem matches_accumulates_with_or_eval :
    c1_filter.m = 4 ∧ c1_filter.k = 2
    ∧ testBit c1_filter.bits (idx (c1_filter.hash 1) c1_filter.m 1) = false
    ∧ c1_filter.matches 1 = true := by
  have hm : sizingM 1 2 = 4 :=
    sizingM_eq (by norm_num) (by norm_num [log2f]) (by norm_num [log2f])
  have hk : sizingK 2 = 2 :=
    sizingK_eq (by norm_num) (by norm_num [log2f]) (by norm_num [log2f])
  refine ⟨?_, ?_, ?_, ?_⟩ <;>
    · simp only [c1_filter, dynamic_bloom.new, dynamic_bloom.insert,
        dynamic_bloom.matches, hm, hk]
      try decide

/-- Claim C2.  The claim states that no validly constructed filter ever
returns a false negative.  Constructing with `n = 100`, `eps = 0.9`
(inside the documented domain `n > 0`, `0 < eps < 1`) yields `k = 0`, so
`insert` sets nothing and `matches` returns false on a just-inserted
value — a false negative, contradicting the claim and the doc comment of
`matches` itself. -/
theorem insert_then_matches_false_eval :
    c2_new.m = 21 ∧ c2_new.k = 0 ∧ (c2_new.insert 7).matches 7 = false := by
  have hm : sizingM 100 (10536 / 100000) = 21 :=
    sizingM_eq (by norm_num) (by norm_num [log2f]) (by norm_num [log2f])
  have hk : sizingK (10536 / 100000) = 0 :=
    sizingK_eq (by norm_num) (by norm_num [log2f]) (by norm_num [log2f])
  refine ⟨?_, ?_, ?_⟩ <;>
    · simp only [c2_new, dynamic_bloom.new, dynamic_bloom.insert,
        dynamic_bloom.matches, hm, hk]
      try decide

/-- Claim C3, counterexample.  The claim states that any construction with
`n > 0` and `eps` strictly between 0 and 1 satisfies `m > 0` and `k ≥ 1`.
Constructing with `n = 1`, `eps = 0.9` (`-log(eps) ≈ 0.10536`) yields
`m = 0` and `k = 0`: both invariants fail. -/
theorem construction_invariants_fail_eval :
    (dynamic_bloom.new Nat 1 (10536 / 100000) (fun x => x)).m = 0
    ∧ (dynamic_bloom.new Nat 1 (10536 / 100000) (fun x => x)).k = 0 := by
  have hm : sizingM 1 (10536 / 100000) = 0 :=
    sizingM_eq (by norm_num) (by norm_num [log2f]) (by norm_num [log2f])
  have hk : sizingK (10536 / 100000) = 0 :=
    sizingK_eq (by norm_num) (by norm_num [log2f]) (by norm_num [log2f])
  exact ⟨hm, hk⟩

/-- Claim C3, amended.  `k ≤ 255` always holds (8-bit field).  `m > 0` and
`k ≥ 1` hold provided the computed `-log(eps)` value is at least the
`ln 2` constant (i.e. `eps ≤ ~0.5`) and the sizing quotients lie in the
representable bit-field ranges; the parameters are then preserved
unchanged by `insert` and `clear`. -/
theorem construction_invariants_for_small_eps (n : Nat) (L : ℚ) (hash : Nat → Nat)
    (h1 : log2f ≤ L) (h2 : L < 256 * log2f)
    (h3 : 1 ≤ (n : ℚ) * L / (log2f * log2f))
    (h4 : (n : ℚ) * L / (log2f * log2f) < 2 ^ 56) :
    (0 < (dynamic_bloom.new Nat n L hash).m
      ∧ 1 ≤ (dynamic_bloom.new Nat n L hash).k
      ∧ (dynamic_bloom.new Nat n L hash).k ≤ 255)
    ∧ ∀ (v : Nat),
      ((dynamic_bloom.new Nat n L hash).insert v).m = (dynamic_bloom.new Nat n L hash).m
      ∧ ((dynamic_bloom.new Nat n L hash).insert v).k = (dynamic_bloom.new Nat n L hash).k
      ∧ (dynamic_bloom.new Nat n L hash).clear.m = (dynamic_bloom.new Nat n L hash).m
      ∧ (dynamic_bloom.new Nat n L hash).clear.k = (dynamic_bloom.new Nat n L hash).k := by
  have hc : (0 : ℚ) < log2f := by norm_num [log2f]
  have hfl1 : 1 ≤ ⌊(n : ℚ) * L / (log2f * log2f)⌋ := by
    rw [Int.le_floor]
    exact_mod_cast h3
  have hfl2 : ⌊(n : ℚ) * L / (log2f * log2f)⌋ < 72057594037927936 := by
    rw [Int.floor_lt]
    push_cast
    exact lt_of_lt_of_le h4 (by norm_num)
  have hk1 : 1 ≤ ⌊L / log2f⌋ := by
    rw [Int.le_floor]
    push_cast
    rw [le_div_iff₀ hc]
    linarith
  have hk2 : ⌊L / log2f⌋ < 256 := by
    rw [Int.floor_lt]
    push_cast
    rw [div_lt_iff₀ hc]
    linarith
  refine ⟨⟨?_, ?_, ?_⟩, fun v => ⟨rfl, rfl, rfl, rfl⟩⟩
  · show 0 < sizingM n L
    unfold sizingM
    have e : (2 : Nat) ^ 56 = 72057594037927936 := by norm_num
    rw [e]
    omega
  · show 1 ≤ sizingK L
    unfold sizingK
    have e : (2 : Nat) ^ 8 = 256 := by norm_num
    rw [e]
    omega
  · show sizingK L ≤ 255
    unfold sizingK
    have e : (2 : Nat) ^ 8 = 256 := by norm_num
    rw [e]
    omega

/-- Witness for `construction_invariants_for_small_eps` at `n = 1000`,
`nlog_eps = 4.6052` (the value for `eps = 0.01`). -/
theorem construction_invariants_for_small_eps_witness :
    (log2f ≤ (46052 / 10000 : ℚ) ∧ (46052 / 10000 : ℚ) < 256 * log2f
      ∧ 1 ≤ ((1000 : Nat) : ℚ) * (46052 / 10000) / (log2f * log2f)
      ∧ ((1000 : Nat) : ℚ) * (46052 / 10000) / (log2f * log2f) < 2 ^ 56)
    ∧ (0 < (dynamic_bloom.new Nat 1000 (46052 / 10000) (fun x => x)).m
      ∧ 1 ≤ (dynamic_bloom.new Nat 1000 (46052 / 10000) (fun x => x)).k
      ∧ (dynamic_bloom.new Nat 1000 (46052 / 10000) (fun x => x)).k ≤ 255) :=
  ⟨⟨by norm_num [log2f], by norm_num [log2f], by norm_num [log2f], by norm_num [log2f]⟩,
    (construction_invariants_for_small_eps 1000 (46052 / 10000) (fun x => x)
      (by norm_num [log2f]) (by norm_num [log2f])
      (by norm_num [log2f]) (by norm_num [log2f])).1⟩

/-- Claim C4.  The claim states that `swap` exchanges exact observable
state for both variants.  For `static_bloom` the swap's loop bound
`auto const len = N / 64 + (N % 64) != 0;` parses as
`(N / 64 + N % 64) != 0`, so only the first 64-bit word is exchanged
(and the hash subobjects are never exchanged).  Evaluating the code at
`N = 100` (two words): `a` holds value `64` (bit in word 1), `b` is
empty; after `swap(a, b)` the claim demands `a.matches(64)` equal
`b`'s previous answer `false`, but the code leaves the bit in place and
`a.matches(64)` is still `true`. -/
theorem static_swap_first_word_only_eval :
    wordLen 100 = 2 ∧ static_bloom.swapLen 100 = 1
    ∧ c4_b.matches 64 = false
    ∧ (static_bloom.swap c4_a c4_b).1.matches 64 = true := by
  decide

/-- Claim C5, counterexample.  The claim states the documented closed form
`k = round(-ln(eps) / ln 2)`; at `eps = 0.01` that rounds `6.64` to `7`,
but the code truncates and computes `6` (shown at `nlog_eps = 4.6052`,
and stable over the whole interval by `sizing_truncates_bounds`). -/
theorem spec_round_k_vs_code_eval :
    spec_round_k (1 / 100) = 7 ∧ sizingK (46052 / 10000) = 6 := by
  constructor
  · unfold spec_round_k
    have h100 : -Real.log (1 / 100) = Real.log 100 := by
      rw [one_div, Real.log_inv, neg_neg]
    rw [h100]
    have hl2 : (0 : ℝ) < Real.log 2 := Real.log_pos (by norm_num)
    have hA : Real.log (8192 : ℝ) < Real.log 10000 :=
      Real.log_lt_log (by norm_num) (by norm_num)
    have hB : Real.log (10000 : ℝ) < Real.log 32768 :=
      Real.log_lt_log (by norm_num) (by norm_num)
    have e1 : Real.log (8192 : ℝ) = 13 * Real.log 2 := by
      rw [show (8192 : ℝ) = 2 ^ 13 by norm_num, Real.log_pow]
      push_cast
      ring
    have e2 : Real.log (32768 : ℝ) = 15 * Real.log 2 := by
      rw [show (32768 : ℝ) = 2 ^ 15 by norm_num, Real.log_pow]
      push_cast
      ring
    have e3 : Real.log (10000 : ℝ) = 2 * Real.log 100 := by
      rw [show (10000 : ℝ) = 100 ^ 2 by norm_num, Real.log_pow]
      push_cast
      ring
    have hlo : (13 / 2 : ℝ) ≤ Real.log 100 / Real.log 2 := by
      rw [le_div_iff₀ hl2]
      nlinarith [hA, e1, e3]
    have hhi : Real.log 100 / Real.log 2 < 15 / 2 := by
      rw [div_lt_iff₀ hl2]
      nlinarith [hB, e2, e3]
    rw [round_eq, Int.floor_eq_iff]
    constructor
    · push_cast
      linarith
    · push_cast
      linarith
  · exact sizingK_eq (by norm_num) (by norm_num [log2f]) (by norm_num [log2f])

/-- Claim C5, amended.  The code truncates rather than ceils/rounds:
`m = ⌊n · L / c²⌋` and `k = ⌊L / c⌋` (then reduced into the bit-fields),
where `L` is the float value of `-log(eps)` and `c` the float `ln 2`
constant.  For `n = 1000`, `eps = 0.01` — any `L` in `[4.6, 4.61]`, which
covers every faithful evaluation of `-log(0.01)` — this yields `k = 6`
(within the claimed 6–8) and `m = 9585 ∈ [9000, 9600]` (within the
claimed 9000–9600). -/
theorem sizing_truncates_bounds (L : ℚ) (h1 : 46 / 10 ≤ L) (h2 : L ≤ 461 / 100) :
    sizingK L = 6 ∧ 9000 ≤ sizingM 1000 L ∧ sizingM 1000 L ≤ 9600 := by
  have hc : (0 : ℚ) < log2f := by norm_num [log2f]
  have hcc : (0 : ℚ) < log2f * log2f := by positivity
  have hfl_lo : (9000 : ℤ) ≤ ⌊((1000 : Nat) : ℚ) * L / (log2f * log2f)⌋ := by
    rw [Int.le_floor]
    push_cast
    rw [le_div_iff₀ hcc]
    nlinarith [show (9000 : ℚ) * (log2f * log2f) ≤ 1000 * (46 / 10) by norm_num [log2f]]
  have hfl_hi : ⌊((1000 : Nat) : ℚ) * L / (log2f * log2f)⌋ < 9601 := by
    rw [Int.floor_lt]
    push_cast
    rw [div_lt_iff₀ hcc]
    nlinarith [show 1000 * (461 / 100 : ℚ) < 9601 * (log2f * log2f) by norm_num [log2f]]
  refine ⟨?_, ?_, ?_⟩
  · apply sizingK_eq (by norm_num)
    · push_cast
      rw [le_div_iff₀ hc]
      nlinarith [show (6 : ℚ) * log2f ≤ 46 / 10 by norm_num [log2f]]
    · push_cast
      rw [div_lt_iff₀ hc]
      nlinarith [show (461 / 100 : ℚ) < (6 + 1) * log2f by norm_num [log2f]]
  · unfold sizingM
    have e : (2 : Nat) ^ 56 = 72057594037927936 := by norm_num
    rw [e]
    omega
  · unfold sizingM
    have e : (2 : Nat) ^ 56 = 72057594037927936 := by norm_num
    rw [e]
    omega

/-- Witness for `sizing_truncates_bounds` at `L = 4.6052`. -/
theorem sizing_truncates_bounds_witness :
    ((46 / 10 : ℚ) ≤ 46052 / 10000 ∧ (46052 / 10000 : ℚ) ≤ 461 / 100)
    ∧ (sizingK (46052 / 10000) = 6 ∧ 9000 ≤ sizingM 1000 (46052 / 10000)
        ∧ sizingM 1000 (46052 / 10000) ≤ 9600) :=
  ⟨⟨by norm_num, by norm_num⟩,
    sizing_truncates_bounds (46052 / 10000) (by norm_num) (by norm_num)⟩

/-- Claim C6, counterexample.  The claim states construction with
`n == 0` (or `eps` outside `(0,1)`) fails with an `InvalidParameter`
error and no usable object is produced.  The constructor performs no
validation: with `n = 0` it completes normally and yields an object with
`m = 0`, `k = 6` (for the default `eps = 0.01`) and a zero-length bit
array — on which any `insert`/`matches` would compute `h % 0`
(undefined behaviour in C++). -/
theorem construction_unvalidated_eval :
    (dynamic_bloom.new Nat 0 (46052 / 10000) (fun x => x)).m = 0
    ∧ (dynamic_bloom.new Nat 0 (46052 / 10000) (fun x => x)).k = 6
    ∧ (dynamic_bloom.new Nat 0 (46052 / 10000) (fun x => x)).bits = [] := by
  have hm : sizingM 0 (46052 / 10000) = 0 :=
    sizingM_eq (by norm_num) (by norm_num [log2f]) (by norm_num [log2f])
  have hk : sizingK (46052 / 10000) = 6 :=
    sizingK_eq (by norm_num) (by norm_num [log2f]) (by norm_num [log2f])
  refine ⟨hm, hk, ?_⟩
  show List.replicate (wordLen (sizingM 0 (46052 / 10000))) 0 = []
  rw [hm]
  rfl

/-- Claim C6, amended.  Construction never fails and performs no parameter
validation: for every `nlog_eps` value and hash it produces an object with
exactly the truncated sizing; for `n = 0` the object is degenerate
(`m = 0`, empty bit array), with undefined behaviour deferred to the
first `insert`/`matches` (modulo by zero).  `eps` outside `(0,1]` already
makes `-std::log(eps)` NaN or negative, whose `size_t` cast is likewise
undefined, still with no error surfaced. -/
theorem construction_total (L : ℚ) (hash : Nat → Nat) :
    (dynamic_bloom.new Nat 0 L hash).m = 0
    ∧ (dynamic_bloom.new Nat 0 L hash).bits = []
    ∧ ∀ (n : Nat), (dynamic_bloom.new Nat n L hash).m = sizingM n L
      ∧ (dynamic_bloom.new Nat n L hash).k = sizingK L := by
  have hm : sizingM 0 L = 0 := by
    unfold sizingM
    rw [Nat.cast_zero, zero_mul, zero_div, Int.floor_zero]
    rfl
  refine ⟨hm, ?_, fun n => ⟨rfl, rfl⟩⟩
  show List.replicate (wordLen (sizingM 0 L)) 0 = []
  rw [hm]
  rfl

/-- Claim C7.  After `clear()` every `matches(v)` is false (for the
dynamic variant on any filter with `m > 0`; for the static variant
unconditionally), and the capacity parameters are unchanged (`m`, `k`
untouched; the static word count is preserved). -/
theorem clear_resets_matches :
    (∀ (f : dynamic_bloom Nat) (v : Nat), 0 < f.m →
      (f.clear.matches v = false ∧ f.clear.m = f.m ∧ f.clear.k = f.k))
    ∧ (∀ (N : Nat) (f : static_bloom N Nat) (v : Nat),
      (f.clear.matches v = false ∧ f.clear.bits.length = f.bits.length)) := by
  constructor
  · intro f v hm
    refine ⟨?_, rfl, rfl⟩
    unfold dynamic_bloom.clear dynamic_bloom.matches
    simp only
    rw [foldl_or_eq, Bool.false_or, List.any_eq_false]
    intro i _
    rw [testBit_def, getD_foldl_set_zero (wordLen f.m) f.bits _
      (div64_lt_wordLen (show idx (f.hash v) f.m i < f.m from Nat.mod_lt _ hm))]
    simp
  · intro N f v
    constructor
    · unfold static_bloom.clear static_bloom.matches
      simp only
      rw [testBit_def, getD_map_zero]
      simp
    · unfold static_bloom.clear
      simp

/-- Witness for `clear_resets_matches` on a concrete populated filter. -/
theorem clear_resets_matches_witness :
    0 < (⟨[3], 4, 2, fun x => x⟩ : dynamic_bloom Nat).m
    ∧ ((⟨[3], 4, 2, fun x => x⟩ : dynamic_bloom Nat).clear.matches 9 = false
      ∧ (⟨[3], 4, 2, fun x => x⟩ : dynamic_bloom Nat).clear.m
          = (⟨[3], 4, 2, fun x => x⟩ : dynamic_bloom Nat).m
      ∧ (⟨[3], 4, 2, fun x => x⟩ : dynamic_bloom Nat).clear.k
          = (⟨[3], 4, 2, fun x => x⟩ : dynamic_bloom Nat).k) :=
  ⟨by decide, clear_resets_matches.1 ⟨[3], 4, 2, fun x => x⟩ 9 (by decide)⟩

/-- Claim C8.  For every filter with `m > 0` (resp. `N > 0`) and every
hash value, the probed bit position is reduced modulo `m` (for
`static_bloom`, modulo `N` or the equivalent power-of-two mask), so it is
below `m` and its word index is below the allocated `⌈m/64⌉` words; with
`m > 0` the modulo is well defined (no division by zero), and the
zeroing loop of `clear` only touches indices below the word count by
construction. -/
theorem accesses_in_bounds :
    (∀ (hash m i : Nat), 0 < m →
      idx hash m i < m ∧ idx hash m i / 64 < wordLen m)
    ∧ (∀ (N h : Nat), 0 < N →
      static_bloom.bucket N h < N ∧ static_bloom.bucket N h / 64 < wordLen N) := by
  constructor
  · intro hash m i hm
    have h1 : idx hash m i < m := Nat.mod_lt _ hm
    exact ⟨h1, div64_lt_wordLen h1⟩
  · intro N h hN
    have h1 : static_bloom.bucket N h < N := by
      unfold static_bloom.bucket
      split
      · exact lt_of_le_of_lt Nat.and_le_right (by omega)
      · exact Nat.mod_lt _ hN
    exact ⟨h1, div64_lt_wordLen h1⟩

/-- Witness for `accesses_in_bounds` at concrete hash values and sizes. -/
theorem accesses_in_bounds_witness :
    (0 < 100 ∧ (idx 123456789 100 3 < 100 ∧ idx 123456789 100 3 / 64 < wordLen 100))
    ∧ (0 < 128 ∧ (static_bloom.bucket 128 999 < 128
        ∧ static_bloom.bucket 128 999 / 64 < wordLen 128)) :=
  ⟨⟨by decide, accesses_in_bounds.1 123456789 100 3 (by decide)⟩,
    ⟨by decide, accesses_in_bounds.2 128 999 (by decide)⟩⟩

/-- Claim C9.  The index generator follows the enhanced-double-hashing
recurrence (round `i` accumulates `h += i * step` on the 64-bit word and
emits `h % m`), and when the low half `step` of the hash is zero every
round emits the same bit position — the degenerate behaviour is present
in the code exactly as the spec describes, not patched. -/
theorem index_generator_recurrence :
    (∀ (hash i : Nat), dhH hash (i + 1) = (dhH hash i + (i + 1) * stepOf hash) % 2 ^ 64)
    ∧ (∀ (hash m k i : Nat), stepOf hash = 0 → i < k → idx hash m i = idx hash m 0) := by
  constructor
  · intro hash i
    rfl
  · intro hash m k i hstep hik
    unfold idx
    congr 1
    clear hik
    induction i with
    | zero => rfl
    | succ i ih =>
      show (dhH hash i + (i + 1) * stepOf hash) % 2 ^ 64 = dhH hash 0
      rw [hstep, Nat.mul_zero, Nat.add_zero, Nat.mod_eq_of_lt (dhH_lt hash i)]
      exact ih

/-- Witness for `index_generator_recurrence` with a hash value whose low
half is zero (`5 · 2^32`): rounds 0 and 2 (of `k = 3`) emit equal
positions modulo `m = 7`. -/
theorem index_generator_recurrence_witness :
    stepOf (5 * 2 ^ 32) = 0 ∧ 2 < 3
    ∧ idx (5 * 2 ^ 32) 7 2 = idx (5 * 2 ^ 32) 7 0 :=
  ⟨by decide, by decide,
    index_generator_recurrence.2 (5 * 2 ^ 32) 7 3 2 (by decide) (by decide)⟩

end tnt
